import Mathlib

/-
Verification of the Black-Scholes option pricing module
(src/option_price_black_scholes.py) against its specification.

The module is embedded shallowly over the real numbers:
- scipy.stats.norm.pdf / norm.cdf become the standard normal density and its
  cumulative integral;
- scipy.optimize.brentq becomes a bracketed root-finding model that fails
  (returns none) exactly when the endpoint values have the same strict sign,
  and otherwise returns a root of the objective inside the bracket;
- the try/except that swallows solver failures becomes a match on an Option;
- the tuple-or-exception result of calculate_theta_and_vega becomes the
  inductive GreeksResult (nans for the (nan, nan) return at sigma = 0, error
  for the exception raised on an unrecognized option-type string).
-/

open Set MeasureTheory intervalIntegral

noncomputable section

namespace BS

/-- Standard normal probability density function; model of scipy.stats.norm.pdf. -/
def norm_pdf (x : ℝ) : ℝ := Real.exp (-(x ^ 2) / 2) / Real.sqrt (2 * Real.pi)

/-- Standard normal cumulative distribution function; model of scipy.stats.norm.cdf. -/
def norm_cdf (x : ℝ) : ℝ := ∫ t in Iic x, norm_pdf t

lemma norm_pdf_pos (x : ℝ) : 0 < norm_pdf x :=
  div_pos (Real.exp_pos _) (Real.sqrt_pos.2 (by positivity))

lemma norm_pdf_neg_arg (x : ℝ) : norm_pdf (-x) = norm_pdf x := by
  unfold norm_pdf
  rw [neg_sq]

lemma continuous_norm_pdf : Continuous norm_pdf := by
  unfold norm_pdf
  have h : Continuous fun x : ℝ => -(x ^ 2) / 2 := ((continuous_pow 2).neg).div_const 2
  exact (Real.continuous_exp.comp h).div_const _

lemma integrable_norm_pdf : Integrable norm_pdf := by
  have h := (integrable_exp_neg_mul_sq (show (0:ℝ) < 1/2 by norm_num)).div_const
    (Real.sqrt (2 * Real.pi))
  have he : norm_pdf = fun x : ℝ => Real.exp (-(1/2) * x ^ 2) / Real.sqrt (2 * Real.pi) := by
    funext x
    unfold norm_pdf
    ring_nf
  rw [he]
  exact h

lemma integral_norm_pdf : (∫ t : ℝ, norm_pdf t) = 1 := by
  have h1 : (∫ t : ℝ, Real.exp (-(1/2) * t ^ 2)) = Real.sqrt (Real.pi / (1/2)) :=
    integral_gaussian (1/2)
  have he : norm_pdf = fun x : ℝ => Real.exp (-(1/2) * x ^ 2) / Real.sqrt (2 * Real.pi) := by
    funext x
    unfold norm_pdf
    ring_nf
  simp only [he]
  rw [MeasureTheory.integral_div, h1, show Real.pi / (1/2) = 2 * Real.pi by ring]
  exact div_self (Real.sqrt_ne_zero'.2 (by positivity))

lemma norm_cdf_neg_arg (x : ℝ) : norm_cdf (-x) = 1 - norm_cdf x := by
  have h1 : (∫ t in Iic (-x), norm_pdf (-t)) = ∫ t in Ioi x, norm_pdf t := by
    have h := integral_comp_neg_Iic (-x) norm_pdf
    simpa using h
  have h2 : norm_cdf (-x) = ∫ t in Ioi x, norm_pdf t := by
    unfold norm_cdf
    rw [← h1]
    simp only [norm_pdf_neg_arg]
  have h3 : norm_cdf x + (∫ t in Ioi x, norm_pdf t) = ∫ t : ℝ, norm_pdf t :=
    integral_Iic_add_Ioi integrable_norm_pdf.integrableOn integrable_norm_pdf.integrableOn
  rw [integral_norm_pdf] at h3
  rw [h2]
  linarith

lemma norm_cdf_sub_zero (x : ℝ) :
    norm_cdf x - norm_cdf 0 = ∫ t in (0:ℝ)..x, norm_pdf t :=
  integral_Iic_sub_Iic integrable_norm_pdf.integrableOn integrable_norm_pdf.integrableOn

lemma hasDerivAt_norm_cdf (x : ℝ) : HasDerivAt norm_cdf (norm_pdf x) x := by
  have h1 : HasDerivAt (fun u => ∫ t in (0:ℝ)..u, norm_pdf t) (norm_pdf x) x :=
    integral_hasDerivAt_right (integrable_norm_pdf.intervalIntegrable)
      (continuous_norm_pdf.stronglyMeasurableAtFilter _ _)
      continuous_norm_pdf.continuousAt
  have h2 := h1.const_add (norm_cdf 0)
  have h3 : (fun u => norm_cdf 0 + ∫ t in (0:ℝ)..u, norm_pdf t) = norm_cdf := by
    funext u
    have := norm_cdf_sub_zero u
    linarith
  rw [h3] at h2
  exact h2

lemma strictMono_norm_cdf : StrictMono norm_cdf :=
  strictMono_of_deriv_pos fun x => by
    rw [(hasDerivAt_norm_cdf x).deriv]
    exact norm_pdf_pos x

lemma norm_cdf_nonneg (x : ℝ) : 0 ≤ norm_cdf x :=
  setIntegral_nonneg measurableSet_Iic fun t _ => (norm_pdf_pos t).le

lemma norm_cdf_pos (x : ℝ) : 0 < norm_cdf x :=
  lt_of_le_of_lt (norm_cdf_nonneg (x - 1)) (strictMono_norm_cdf (by linarith))

lemma norm_cdf_lt_one (x : ℝ) : norm_cdf x < 1 := by
  have h1 := norm_cdf_neg_arg x
  have h2 := norm_cdf_pos (-x)
  linarith

/-- Intermediate quantity d1 of the Black-Scholes formulas, as computed (three
times, with the identical expression) in the source. -/
def d1 (S K r T sigma : ℝ) : ℝ :=
  (Real.log (S / K) + (r + 0.5 * sigma ^ 2) * T) / (sigma * Real.sqrt T)

/-- Intermediate quantity d2 of the Black-Scholes formulas. -/
def d2 (S K r T sigma : ℝ) : ℝ := d1 S K r T sigma - sigma * Real.sqrt T

/-- Model of black_scholes_call. -/
def black_scholes_call (S K r T sigma : ℝ) : ℝ :=
  S * norm_cdf (d1 S K r T sigma) - K * Real.exp (-r * T) * norm_cdf (d2 S K r T sigma)

/-- Model of black_scholes_put. -/
def black_scholes_put (S K r T sigma : ℝ) : ℝ :=
  K * Real.exp (-r * T) * norm_cdf (-(d2 S K r T sigma)) - S * norm_cdf (-(d1 S K r T sigma))

/- Model of scipy.optimize.brentq on the bracket [a, b]: it fails when the
objective has the same strict sign at both endpoints (scipy raises ValueError),
and otherwise returns a root of the objective inside the bracket; the final
none branch stands for any other numerical failure of the search. -/
open Classical in
def brentq (f : ℝ → ℝ) (a b : ℝ) : Option ℝ :=
  if 0 < f a * f b then none
  else if h : ∃ x ∈ Icc a b, f x = 0 then some h.choose else none

/-- Model of implied_volatility_call. The try/except around the brentq call
returns the sentinel 0 on any solver failure; sigma_est is accepted (default
0.25 at the call sites) but never read. -/
def implied_volatility_call (S K r T market_price sigma_est : ℝ) : ℝ :=
  match brentq (fun sigma => black_scholes_call S K r T sigma - market_price) 0.01 5.0 with
  | none => 0
  | some iv => iv * 100

/-- Model of implied_volatility_put. -/
def implied_volatility_put (S K r T market_price sigma_est : ℝ) : ℝ :=
  match brentq (fun sigma => black_scholes_put S K r T sigma - market_price) 0.01 5.0 with
  | none => 0
  | some iv => iv * 100

/-- Result of calculate_theta_and_vega: nans models the (nan, nan) return at
sigma = 0; pair v t models the returned tuple (vega/100, theta/365); error
models the exception raised when opt_type is neither "c" nor "p" (theta is
then an unbound local at the return statement). -/
inductive GreeksResult where
  | nans : GreeksResult
  | pair : ℝ → ℝ → GreeksResult
  | error : GreeksResult

/-- Model of calculate_theta_and_vega. -/
def calculate_theta_and_vega (S K r T sigma : ℝ) (opt_type : String) : GreeksResult :=
  if sigma = 0 then GreeksResult.nans
  else if opt_type = "c" then
    GreeksResult.pair (S * norm_pdf (d1 S K r T sigma) * Real.sqrt T / 100)
      ((-(S * norm_pdf (d1 S K r T sigma) * sigma / (2 * Real.sqrt T)) -
          r * K * Real.exp (-r * T) * norm_cdf (d2 S K r T sigma)) / 365)
  else if opt_type = "p" then
    GreeksResult.pair (S * norm_pdf (d1 S K r T sigma) * Real.sqrt T / 100)
      ((-(S * norm_pdf (-(d1 S K r T sigma)) * sigma / (2 * Real.sqrt T)) +
          r * K * Real.exp (-r * T) * norm_cdf (-(d2 S K r T sigma))) / 365)
  else GreeksResult.error

lemma d1_sub_d2 (S K r T sigma : ℝ) :
    d1 S K r T sigma - d2 S K r T sigma = sigma * Real.sqrt T := by
  unfold d2
  ring

/-- Key density identity behind the vega formula: the discounted strike times
the density at d2 equals the spot times the density at d1. -/
lemma strike_pdf_eq_spot_pdf (S K r T sigma : ℝ) (hS : 0 < S) (hK : 0 < K)
    (hT : 0 < T) (hs : 0 < sigma) :
    K * Real.exp (-r * T) * norm_pdf (d2 S K r T sigma) =
      S * norm_pdf (d1 S K r T sigma) := by
  have hsT : 0 < Real.sqrt T := Real.sqrt_pos.2 hT
  have hst : sigma * Real.sqrt T ≠ 0 := (mul_pos hs hsT).ne'
  have hsq : Real.sqrt T ^ 2 = T := Real.sq_sqrt hT.le
  have ha : d1 S K r T sigma * (sigma * Real.sqrt T) =
      Real.log (S / K) + (r + 0.5 * sigma ^ 2) * T := by
    unfold d1
    field_simp
  have hc2 : (sigma * Real.sqrt T) ^ 2 = sigma ^ 2 * T := by
    rw [mul_pow, hsq]
  have hkey : d1 S K r T sigma ^ 2 - d2 S K r T sigma ^ 2 =
      2 * (Real.log (S / K) + r * T) := by
    have hb : d2 S K r T sigma = d1 S K r T sigma - sigma * Real.sqrt T := rfl
    rw [hb]
    linear_combination 2 * ha - hc2
  have hSK : Real.exp (Real.log (S / K)) = S / K := Real.exp_log (div_pos hS hK)
  have e1 : Real.exp (-(d2 S K r T sigma ^ 2) / 2) =
      Real.exp (-(d1 S K r T sigma ^ 2) / 2) * (S / K * Real.exp (r * T)) := by
    have harg : -(d2 S K r T sigma ^ 2) / 2 =
        -(d1 S K r T sigma ^ 2) / 2 + (Real.log (S / K) + r * T) := by
      linarith
    rw [harg, Real.exp_add, Real.exp_add, hSK]
  have hexp : Real.exp (-r * T) * Real.exp (r * T) = 1 := by
    rw [← Real.exp_add]
    norm_num
  unfold norm_pdf
  rw [e1]
  have hKK : K / K = 1 := div_self hK.ne'
  have hfin : K * Real.exp (-r * T) *
      (Real.exp (-(d1 S K r T sigma ^ 2) / 2) * (S / K * Real.exp (r * T)) /
        Real.sqrt (2 * Real.pi)) =
      Real.exp (-r * T) * Real.exp (r * T) * (K / K) *
        (S * (Real.exp (-(d1 S K r T sigma ^ 2) / 2) / Real.sqrt (2 * Real.pi))) := by
    ring
  rw [hfin, hexp, hKK, one_mul, one_mul]

lemma hasDerivAt_d1 (S K r T : ℝ) (hT : 0 < T) (sigma : ℝ) (hs : 0 < sigma) :
    HasDerivAt (fun s => d1 S K r T s)
      ((sigma * T * (sigma * Real.sqrt T) -
          (Real.log (S / K) + (r + 0.5 * sigma ^ 2) * T) * Real.sqrt T) /
        (sigma * Real.sqrt T) ^ 2) sigma := by
  have hst : sigma * Real.sqrt T ≠ 0 := (mul_pos hs (Real.sqrt_pos.2 hT)).ne'
  have hnum : HasDerivAt (fun s : ℝ => Real.log (S / K) + (r + 0.5 * s ^ 2) * T)
      (sigma * T) sigma := by
    have h1 : HasDerivAt (fun s : ℝ => s ^ 2) (2 * sigma) sigma := by
      simpa using hasDerivAt_pow 2 sigma
    have h3 := (((h1.const_mul 0.5).const_add r).mul_const T).const_add (Real.log (S / K))
    have hv : 0.5 * (2 * sigma) * T = sigma * T := by ring
    rw [hv] at h3
    exact h3
  have hden : HasDerivAt (fun s : ℝ => s * Real.sqrt T) (Real.sqrt T) sigma := by
    simpa using (hasDerivAt_id sigma).mul_const (Real.sqrt T)
  have h := hnum.div hden hst
  exact h

lemma hasDerivAt_bs_call (S K r T : ℝ) (hS : 0 < S) (hK : 0 < K) (hT : 0 < T)
    (sigma : ℝ) (hs : 0 < sigma) :
    HasDerivAt (fun s => black_scholes_call S K r T s)
      (S * norm_pdf (d1 S K r T sigma) * Real.sqrt T) sigma := by
  set D := ((sigma * T * (sigma * Real.sqrt T) -
      (Real.log (S / K) + (r + 0.5 * sigma ^ 2) * T) * Real.sqrt T) /
    (sigma * Real.sqrt T) ^ 2) with hD
  have hd1 : HasDerivAt (fun s => d1 S K r T s) D sigma := hasDerivAt_d1 S K r T hT sigma hs
  have hsqrt : HasDerivAt (fun s : ℝ => s * Real.sqrt T) (Real.sqrt T) sigma := by
    simpa using (hasDerivAt_id sigma).mul_const (Real.sqrt T)
  have hd2 : HasDerivAt (fun s => d2 S K r T s) (D - Real.sqrt T) sigma := hd1.sub hsqrt
  have hc1 : HasDerivAt (fun s => norm_cdf (d1 S K r T s))
      (norm_pdf (d1 S K r T sigma) * D) sigma :=
    (hasDerivAt_norm_cdf (d1 S K r T sigma)).comp sigma hd1
  have hc2 : HasDerivAt (fun s => norm_cdf (d2 S K r T s))
      (norm_pdf (d2 S K r T sigma) * (D - Real.sqrt T)) sigma :=
    (hasDerivAt_norm_cdf (d2 S K r T sigma)).comp sigma hd2
  have hsum := (hc1.const_mul S).sub (hc2.const_mul (K * Real.exp (-r * T)))
  have hkey := strike_pdf_eq_spot_pdf S K r T sigma hS hK hT hs
  have hval : S * (norm_pdf (d1 S K r T sigma) * D) -
      K * Real.exp (-r * T) * (norm_pdf (d2 S K r T sigma) * (D - Real.sqrt T)) =
      S * norm_pdf (d1 S K r T sigma) * Real.sqrt T := by
    linear_combination (Real.sqrt T - D) * hkey
  rw [hval] at hsum
  exact hsum

/-- The Black-Scholes call price is strictly increasing in sigma on all of
(0, ∞), for any positive spot, strike and maturity. -/
lemma bs_call_strictMonoOn (S K r T : ℝ) (hS : 0 < S) (hK : 0 < K) (hT : 0 < T) :
    StrictMonoOn (fun s => black_scholes_call S K r T s) (Ioi 0) := by
  apply strictMonoOn_of_deriv_pos (convex_Ioi 0)
  · intro x hx
    exact ((hasDerivAt_bs_call S K r T hS hK hT x hx).differentiableAt.continuousAt).continuousWithinAt
  · intro x hx
    rw [interior_Ioi] at hx
    rw [(hasDerivAt_bs_call S K r T hS hK hT x hx).deriv]
    exact mul_pos (mul_pos hS (norm_pdf_pos _)) (Real.sqrt_pos.2 hT)

/-- The call price is always strictly below the spot price. -/
lemma bs_call_lt_spot (S K r T sigma : ℝ) (hS : 0 < S) (hK : 0 < K) :
    black_scholes_call S K r T sigma < S := by
  unfold black_scholes_call
  have h1 : norm_cdf (d1 S K r T sigma) < 1 := norm_cdf_lt_one _
  have h2 : 0 < norm_cdf (d2 S K r T sigma) := norm_cdf_pos _
  have h3 : 0 < K * Real.exp (-r * T) * norm_cdf (d2 S K r T sigma) :=
    mul_pos (mul_pos hK (Real.exp_pos _)) h2
  nlinarith

/-- The put price is always strictly below the discounted strike. -/
lemma bs_put_lt_strike (S K r T sigma : ℝ) (hS : 0 < S) (hK : 0 < K) :
    black_scholes_put S K r T sigma < K * Real.exp (-r * T) := by
  unfold black_scholes_put
  have h1 : norm_cdf (-(d2 S K r T sigma)) < 1 := norm_cdf_lt_one _
  have h2 : 0 < norm_cdf (-(d1 S K r T sigma)) := norm_cdf_pos _
  have h3 : 0 < K * Real.exp (-r * T) := mul_pos hK (Real.exp_pos _)
  nlinarith

lemma brentq_none_of_pos (f : ℝ → ℝ) (a b : ℝ) (h : 0 < f a * f b) :
    brentq f a b = none := by
  unfold brentq
  rw [if_pos h]

lemma brentq_some_spec (f : ℝ → ℝ) (a b x : ℝ) (h : brentq f a b = some x) :
    x ∈ Icc a b ∧ f x = 0 := by
  unfold brentq at h
  by_cases h1 : 0 < f a * f b
  · rw [if_pos h1] at h
    exact absurd h (by simp)
  · rw [if_neg h1] at h
    by_cases h2 : ∃ y ∈ Icc a b, f y = 0
    · rw [dif_pos h2] at h
      obtain rfl : h2.choose = x := by injection h
      exact h2.choose_spec
    · rw [dif_neg h2] at h
      exact absurd h (by simp)

lemma iv_call_of_none (S K r T mp e : ℝ)
    (h : brentq (fun sigma => black_scholes_call S K r T sigma - mp) 0.01 5.0 = none) :
    implied_volatility_call S K r T mp e = 0 := by
  unfold implied_volatility_call
  rw [h]

lemma iv_put_of_none (S K r T mp e : ℝ)
    (h : brentq (fun sigma => black_scholes_put S K r T sigma - mp) 0.01 5.0 = none) :
    implied_volatility_put S K r T mp e = 0 := by
  unfold implied_volatility_put
  rw [h]

/-- When the market price is the call price at a volatility strictly inside the
bracket, the solver recovers exactly that volatility, times 100. -/
lemma iv_call_recovers (S K r T sigma e : ℝ) (hS : 0 < S) (hK : 0 < K) (hT : 0 < T)
    (hlo : 0.01 < sigma) (hhi : sigma < 5.0) :
    implied_volatility_call S K r T (black_scholes_call S K r T sigma) e = sigma * 100 := by
  have hmono := bs_call_strictMonoOn S K r T hS hK hT
  have h001 : (0.01:ℝ) ∈ Ioi (0:ℝ) := by norm_num
  have h5 : (5.0:ℝ) ∈ Ioi (0:ℝ) := by norm_num
  have hsm : sigma ∈ Ioi (0:ℝ) := by
    have : (0:ℝ) < 0.01 := by norm_num
    simp only [mem_Ioi]
    linarith
  unfold implied_volatility_call
  set f := fun s => black_scholes_call S K r T s - black_scholes_call S K r T sigma with hf
  have hneg : f 0.01 < 0 := by
    have h := hmono h001 hsm hlo
    simp only [hf]
    simpa using h
  have hpos : 0 < f 5.0 := by
    have h := hmono hsm h5 hhi
    simp only [hf]
    simpa using h
  have hprod : ¬ 0 < f 0.01 * f 5.0 := by
    have := mul_neg_of_neg_of_pos hneg hpos
    linarith
  have hex : ∃ x ∈ Icc (0.01:ℝ) 5.0, f x = 0 := by
    refine ⟨sigma, ⟨hlo.le, hhi.le⟩, ?_⟩
    simp [hf]
  have hbr : brentq f 0.01 5.0 = some hex.choose := by
    unfold brentq
    rw [if_neg hprod, dif_pos hex]
  have hspec := hex.choose_spec
  have hchoose : hex.choose = sigma := by
    have hmem : hex.choose ∈ Ioi (0:ℝ) := by
      have h1 := hspec.1.1
      simp only [mem_Ioi]
      have : (0:ℝ) < 0.01 := by norm_num
      linarith
    apply hmono.injOn hmem hsm
    have h0 := hspec.2
    simp only [hf] at h0
    have : black_scholes_call S K r T hex.choose = black_scholes_call S K r T sigma := by
      linarith
    exact this
  rw [hbr]
  show hex.choose * 100 = sigma * 100
  rw [hchoose]

/-- C1: for every S>0, K>0, T>0, sigma>0 and any real r, black_scholes_call
returns S·Φ(d1) − K·e^(−rT)·Φ(d2), where d1 = (ln(S/K) + (r + 0.5·sigma²)·T)/
(sigma·sqrt T), d2 = d1 − sigma·sqrt T, and Φ is the standard normal CDF. -/
theorem claim_C1_call_price_formula (S K r T sigma : ℝ)
    (hS : 0 < S) (hK : 0 < K) (hT : 0 < T) (hs : 0 < sigma) :
    black_scholes_call S K r T sigma =
      S * norm_cdf ((Real.log (S / K) + (r + 0.5 * sigma ^ 2) * T) / (sigma * Real.sqrt T)) -
        K * Real.exp (-r * T) *
          norm_cdf ((Real.log (S / K) + (r + 0.5 * sigma ^ 2) * T) / (sigma * Real.sqrt T) -
            sigma * Real.sqrt T) := rfl

theorem claim_C1_call_price_formula_witness :
    black_scholes_call 1 1 0 1 1 =
      1 * norm_cdf ((Real.log (1 / 1) + (0 + 0.5 * 1 ^ 2) * 1) / (1 * Real.sqrt 1)) -
        1 * Real.exp (-0 * 1) *
          norm_cdf ((Real.log (1 / 1) + (0 + 0.5 * 1 ^ 2) * 1) / (1 * Real.sqrt 1) -
            1 * Real.sqrt 1) :=
  claim_C1_call_price_formula 1 1 0 1 1 one_pos one_pos one_pos one_pos

/-- C2: put-call parity holds exactly for the embedded real-number formulas:
call minus put equals S − K·exp(−rT), for all positive S, K, T, sigma. -/
theorem claim_C2_put_call_parity (S K r T sigma : ℝ)
    (hS : 0 < S) (hK : 0 < K) (hT : 0 < T) (hs : 0 < sigma) :
    black_scholes_call S K r T sigma - black_scholes_put S K r T sigma =
      S - K * Real.exp (-r * T) := by
  unfold black_scholes_call black_scholes_put
  rw [norm_cdf_neg_arg (d1 S K r T sigma), norm_cdf_neg_arg (d2 S K r T sigma)]
  ring

theorem claim_C2_put_call_parity_witness :
    black_scholes_call 1 1 0 1 1 - black_scholes_put 1 1 0 1 1 = 1 - 1 * Real.exp (-0 * 1) :=
  claim_C2_put_call_parity 1 1 0 1 1 one_pos one_pos one_pos one_pos

/-- C3: calculate_theta_and_vega returns the NaN pair at sigma = 0 for any
option type, and for sigma>0 returns vega = S·φ(d1)·√T/100 with the call
respectively put theta formula divided by 365. -/
theorem claim_C3_greeks_formulas (S K r T sigma : ℝ) (opt_type : String) :
    (sigma = 0 → calculate_theta_and_vega S K r T sigma opt_type = GreeksResult.nans) ∧
    (0 < S → 0 < K → 0 < T → 0 < sigma →
      (opt_type = "c" →
        calculate_theta_and_vega S K r T sigma opt_type =
          GreeksResult.pair (S * norm_pdf (d1 S K r T sigma) * Real.sqrt T / 100)
            ((-(S * norm_pdf (d1 S K r T sigma) * sigma / (2 * Real.sqrt T)) -
                r * K * Real.exp (-r * T) * norm_cdf (d2 S K r T sigma)) / 365)) ∧
      (opt_type = "p" →
        calculate_theta_and_vega S K r T sigma opt_type =
          GreeksResult.pair (S * norm_pdf (d1 S K r T sigma) * Real.sqrt T / 100)
            ((-(S * norm_pdf (-(d1 S K r T sigma)) * sigma / (2 * Real.sqrt T)) +
                r * K * Real.exp (-r * T) * norm_cdf (-(d2 S K r T sigma))) / 365))) := by
  refine ⟨fun h => by simp [calculate_theta_and_vega, h],
    fun hS hK hT hs => ⟨fun hc => ?_, fun hp => ?_⟩⟩
  · simp [calculate_theta_and_vega, hs.ne', hc]
  · simp [calculate_theta_and_vega, hs.ne', hp]

theorem claim_C3_greeks_formulas_witness :
    calculate_theta_and_vega 1 1 0 1 0 "c" = GreeksResult.nans :=
  (claim_C3_greeks_formulas 1 1 0 1 0 "c").1 rfl

/-- C4: when the bracket objective has no sign change (same strict sign at
both endpoints of [0.01, 5.0]), both implied-volatility solvers return the
sentinel 0 rather than raising. -/
theorem claim_C4_failure_sentinel (S K r T mp e : ℝ)
    (hc : 0 < (black_scholes_call S K r T 0.01 - mp) * (black_scholes_call S K r T 5.0 - mp))
    (hp : 0 < (black_scholes_put S K r T 0.01 - mp) * (black_scholes_put S K r T 5.0 - mp)) :
    implied_volatility_call S K r T mp e = 0 ∧ implied_volatility_put S K r T mp e = 0 :=
  ⟨iv_call_of_none S K r T mp e (brentq_none_of_pos _ _ _ hc),
    iv_put_of_none S K r T mp e (brentq_none_of_pos _ _ _ hp)⟩

theorem claim_C4_failure_sentinel_witness :
    implied_volatility_call 100 100 0.05 1 200 0.25 = 0 ∧
      implied_volatility_put 100 100 0.05 1 200 0.25 = 0 := by
  apply claim_C4_failure_sentinel
  · have h1 : black_scholes_call 100 100 0.05 1 0.01 < 100 :=
      bs_call_lt_spot 100 100 0.05 1 0.01 (by norm_num) (by norm_num)
    have h2 : black_scholes_call 100 100 0.05 1 5.0 < 100 :=
      bs_call_lt_spot 100 100 0.05 1 5.0 (by norm_num) (by norm_num)
    exact mul_pos_of_neg_of_neg (by linarith) (by linarith)
  · have hlt : (100:ℝ) * Real.exp (-0.05 * 1) < 200 := by
      have h : Real.exp (-0.05 * 1) < 1 := Real.exp_lt_one_iff.2 (by norm_num)
      nlinarith
    have h1 : black_scholes_put 100 100 0.05 1 0.01 < 100 * Real.exp (-0.05 * 1) :=
      bs_put_lt_strike 100 100 0.05 1 0.01 (by norm_num) (by norm_num)
    have h2 : black_scholes_put 100 100 0.05 1 5.0 < 100 * Real.exp (-0.05 * 1) :=
      bs_put_lt_strike 100 100 0.05 1 5.0 (by norm_num) (by norm_num)
    exact mul_pos_of_neg_of_neg (by linarith) (by linarith)

/-- C5: at S=100, K=100, r=0.05, T=1 and market_price = S + 1 = 101 (above
every attainable call price, which is strictly below S), the source code
returns the numeric sentinel 0 — not an explicit NoSolutionFound failure.
This theorem evaluates the embedded code at that failing input. -/
theorem claim_C5_source_returns_sentinel_zero :
    implied_volatility_call 100 100 0.05 1 101 0.25 = 0 := by
  apply iv_call_of_none
  apply brentq_none_of_pos
  have h1 : black_scholes_call 100 100 0.05 1 0.01 < 100 :=
    bs_call_lt_spot 100 100 0.05 1 0.01 (by norm_num) (by norm_num)
  have h2 : black_scholes_call 100 100 0.05 1 5.0 < 100 :=
    bs_call_lt_spot 100 100 0.05 1 5.0 (by norm_num) (by norm_num)
  show 0 <
    (black_scholes_call 100 100 0.05 1 0.01 - 101) * (black_scholes_call 100 100 0.05 1 5.0 - 101)
  exact mul_pos_of_neg_of_neg (by linarith) (by linarith)

/-- C6: with S=100, K=100, r=0.05, T=1, sigma=0.2, feeding the computed call
price back to implied_volatility_call returns 20.0 within 0.01 (here exactly). -/
theorem claim_C6_round_trip :
    |implied_volatility_call 100 100 0.05 1 (black_scholes_call 100 100 0.05 1 0.2) 0.25 - 20| ≤
      0.01 := by
  have h : implied_volatility_call 100 100 0.05 1 (black_scholes_call 100 100 0.05 1 0.2) 0.25 =
      0.2 * 100 :=
    iv_call_recovers 100 100 0.05 1 0.2 0.25 (by norm_num) (by norm_num) (by norm_num)
      (by norm_num) (by norm_num)
  rw [h]
  norm_num

/-- C7: for every fixed S>0, K>0, T>0 and real r, the call price is strictly
increasing in sigma on the interval (0, 5.0]. -/
theorem claim_C7_call_price_strictMono_in_sigma (S K r T : ℝ)
    (hS : 0 < S) (hK : 0 < K) (hT : 0 < T) :
    StrictMonoOn (fun sigma => black_scholes_call S K r T sigma) (Ioc 0 5.0) :=
  (bs_call_strictMonoOn S K r T hS hK hT).mono Ioc_subset_Ioi_self

theorem claim_C7_call_price_strictMono_in_sigma_witness :
    StrictMonoOn (fun sigma => black_scholes_call 1 1 0 1 sigma) (Ioc 0 5.0) :=
  claim_C7_call_price_strictMono_in_sigma 1 1 0 1 one_pos one_pos one_pos

/-- C8: with sigma>0, calling calculate_theta_and_vega with an opt_type other
than "c" and "p" fails (the embedded error outcome models the exception the
source raises there); it never silently falls back to a call or a put. -/
theorem claim_C8_invalid_opt_type_fails (S K r T sigma : ℝ) (opt_type : String)
    (hs : 0 < sigma) (hc : opt_type ≠ "c") (hp : opt_type ≠ "p") :
    calculate_theta_and_vega S K r T sigma opt_type = GreeksResult.error := by
  simp [calculate_theta_and_vega, hs.ne', hc, hp]

theorem claim_C8_invalid_opt_type_fails_witness :
    calculate_theta_and_vega 1 1 0 1 1 "x" = GreeksResult.error :=
  claim_C8_invalid_opt_type_fails 1 1 0 1 1 "x" one_pos (by decide) (by decide)

/-- C9: the result of either implied-volatility function never depends on the
dead sigma_est parameter. -/
theorem claim_C9_sigma_est_noninterference (S K r T mp e1 e2 : ℝ) :
    implied_volatility_call S K r T mp e1 = implied_volatility_call S K r T mp e2 ∧
      implied_volatility_put S K r T mp e1 = implied_volatility_put S K r T mp e2 :=
  ⟨rfl, rfl⟩

/-- C10: each implied-volatility function returns either exactly the sentinel
0 or a value in [1, 500], namely 100 times a root inside the bracket
[0.01, 5.0]; a successful solve can never itself produce a value below 1. -/
theorem claim_C10_result_zero_or_in_range (S K r T mp e : ℝ) :
    (implied_volatility_call S K r T mp e = 0 ∨
      (1 ≤ implied_volatility_call S K r T mp e ∧ implied_volatility_call S K r T mp e ≤ 500)) ∧
    (implied_volatility_put S K r T mp e = 0 ∨
      (1 ≤ implied_volatility_put S K r T mp e ∧ implied_volatility_put S K r T mp e ≤ 500)) := by
  constructor
  · rcases hb : brentq (fun sigma => black_scholes_call S K r T sigma - mp) 0.01 5.0 with _ | x
    · exact Or.inl (iv_call_of_none S K r T mp e hb)
    · refine Or.inr ?_
      have hm := (brentq_some_spec _ _ _ _ hb).1
      have hval : implied_volatility_call S K r T mp e = x * 100 := by
        unfold implied_volatility_call
        rw [hb]
      rw [hval]
      have h1 : (0.01:ℝ) ≤ x := hm.1
      have h2 : x ≤ 5.0 := hm.2
      constructor <;> nlinarith
  · rcases hb : brentq (fun sigma => black_scholes_put S K r T sigma - mp) 0.01 5.0 with _ | x
    · exact Or.inl (iv_put_of_none S K r T mp e hb)
    · refine Or.inr ?_
      have hm := (brentq_some_spec _ _ _ _ hb).1
      have hval : implied_volatility_put S K r T mp e = x * 100 := by
        unfold implied_volatility_put
        rw [hb]
      rw [hval]
      have h1 : (0.01:ℝ) ≤ x := hm.1
      have h2 : x ≤ 5.0 := hm.2
      constructor <;> nlinarith

end BS
